import Mathlib

/-!
Verification of the wzsh command-language parser and interactive driver.

The development shallowly embeds the shell parser of `src/parse.rs`
(recursive-descent over a token stream with a single-slot lookahead), the
recoverability classifier `is_recoverable_parse_error` of `src/repl.rs`,
`SimpleCommand::expand_argv`, and the control flow of the interactive loop
around `compile_and_run`.

The token source is modelled as a list of tokens; when the list is empty the
source keeps yielding end-of-stream tokens, mirroring the lexer contract.
The parser's loops are written with an explicit fuel parameter so every
definition is computable by kernel reduction; the entry point supplies
`tokens.length + 1` fuel, which bounds every loop because each loop
iteration permanently consumes at least one non-end-of-stream token.
Running out of fuel is a distinct error value, never a silent result.
-/

/-- Operator tokens consumed by this grammar subset (shlex `Operator`). -/
inductive Operator where
  | pipe
  | ampersand
  | semicolon
  | andIf
  | orIf
deriving DecidableEq, Repr

/-- Reserved words; the grammar subset only inspects `Bang`. -/
inductive ReservedWord where
  | bang
deriving DecidableEq, Repr

/-- Token kinds of the external token source (shlex `TokenKind`). -/
inductive TokenKind where
  | word (text : String)
  | name (text : String)
  | reservedWord (w : ReservedWord)
  | operator (op : Operator)
  | newLine
  | eof
deriving DecidableEq, Repr

/-- Source position carried by every token (shlex `TokenPosition`). -/
structure TokenPosition where
  line_number : Nat
  col_number : Nat
deriving DecidableEq, Repr

/-- A token: kind plus source span (shlex `Token`). -/
structure Token where
  kind : TokenKind
  start : TokenPosition
  endPos : TokenPosition
deriving DecidableEq, Repr

/-- `Token::is_reserved_word`: the token is the given reserved word. -/
def Token.is_reserved_word (t : Token) (w : ReservedWord) : Bool :=
  t.kind == .reservedWord w

/-- Modelled from the spec: `TokenKind::parse_assignment_word` lives in the
external `shlex` crate, which is not under `src/`; §4.1 specifies that a word
is an assignment when its text matches the assignment-word shape
`NAME=value`.  A name is a leading alphabetic or underscore character
followed by alphanumerics or underscores. -/
def validAssignmentName (cs : List Char) : Bool :=
  match cs with
  | [] => false
  | c :: rest => (c.isAlpha || c == '_') && rest.all (fun d => d.isAlphanum || d == '_')

/-- Modelled from the spec: split `NAME=value` at the first `=`; `none` when
the text has no `=` or the part before it is not a valid name. -/
def parse_assignment_word (s : String) : Option (String × String) :=
  let cs := s.data
  let name := cs.takeWhile (fun c => c != '=')
  if name.length < cs.length && validAssignmentName name then
    some (⟨name⟩, ⟨cs.drop (name.length + 1)⟩)
  else
    none

/-- `Separator` of `parse.rs`: how a list element was terminated. -/
inductive Separator where
  | sync
  | async
deriving DecidableEq, Repr

/-- The distinct parser failure values of `parse.rs`.
`unexpectedToken` is `ParseErrorKind::UnexpectedToken` with the offending
token's start position attached; `expectedAndOr` is the
`bail!("expected and_or")` of `parse`; the remaining message errors mirror
the other `bail!`/`format_err!` sites.  `assertionFailed` models the
`assert!` in `unget_token` firing, and `fuelExhausted` is the artefact of the
fuel bound (proved unreachable for the supplied fuel where needed). -/
inductive ParseError where
  | unexpectedToken (pos : TokenPosition)
  | expectedAndOr
  | missingPipelineAfter (op : Operator)
  | expectedCommandAfterBang
  | expectedCommandAfterPipe
  | assertionFailed
  | fuelExhausted
deriving DecidableEq, Repr

/-- `FileRedirection` of `parse.rs`. -/
structure FileRedirection where
  fd_number : Nat
  file_name : Token
  input : Bool
  output : Bool
  clobber : Bool
  append : Bool
deriving DecidableEq, Repr

/-- `FdDuplication` of `parse.rs`. -/
structure FdDuplication where
  src_fd_number : Nat
  dest_fd_number : Nat
deriving DecidableEq, Repr

/-- `SimpleCommand` of `parse.rs`. -/
structure SimpleCommand where
  assignments : List Token
  file_redirects : List FileRedirection
  fd_dups : List FdDuplication
  words : List Token
  asynchronous : Bool
deriving DecidableEq, Repr

/-- `RedirectList` of `parse.rs` (currently empty). -/
structure RedirectList where
deriving DecidableEq, Repr

mutual
/-- `Command` of `parse.rs`: `{ asynchronous, command, redirects }`. -/
inductive Command where
  | mk (asynchronous : Bool) (command : CommandType) (redirects : Option RedirectList)

/-- `CommandType` of `parse.rs`. -/
inductive CommandType where
  | pipeline (p : Pipeline)
  | simpleCommand (c : SimpleCommand)
  | braceGroup (l : CompoundList)
  | subshell (l : CompoundList)
  | forEach (f : ForEach)
  | ifCmd (i : If)
  | untilLoop (u : UntilLoop)
  | whileLoop (w : WhileLoop)

/-- `Pipeline` of `parse.rs`. -/
inductive Pipeline where
  | mk (inverted : Bool) (commands : List Command)

/-- `CompoundList` of `parse.rs`. -/
inductive CompoundList where
  | mk (commands : List Command)

/-- `If` of `parse.rs`. -/
inductive If where
  | mk (condition : CompoundList) (true_part : Option CompoundList)
      (false_part : Option CompoundList)

/-- `ForEach` of `parse.rs`. -/
inductive ForEach where
  | mk (wordlist : List Token) (body : CompoundList)

/-- `UntilLoop` of `parse.rs` (body before condition, intentionally). -/
inductive UntilLoop where
  | mk (body : CompoundList) (condition : CompoundList)

/-- `WhileLoop` of `parse.rs`. -/
inductive WhileLoop where
  | mk (condition : CompoundList) (body : CompoundList)
end

def Command.asynchronous : Command → Bool
  | .mk a _ _ => a

def Command.command : Command → CommandType
  | .mk _ c _ => c

def Command.redirects : Command → Option RedirectList
  | .mk _ _ r => r

def Pipeline.inverted : Pipeline → Bool
  | .mk i _ => i

def Pipeline.commands : Pipeline → List Command
  | .mk _ cs => cs

def CompoundList.commands : CompoundList → List Command
  | .mk cs => cs

def If.condition : If → CompoundList
  | .mk c _ _ => c

def If.true_part : If → Option CompoundList
  | .mk _ t _ => t

def If.false_part : If → Option CompoundList
  | .mk _ _ f => f

/-- `impl From<CommandType> for Command`. -/
def Command.fromCommandType (command : CommandType) : Command :=
  .mk false command none

/-- `impl From<Pipeline> for Command`: simplify a pipeline to the command
itself if possible (one command, not inverted), else wrap it. -/
def Command.fromPipeline : Pipeline → Command
  | .mk false [c] => c
  | p => .mk false (.pipeline p) none

/-- `impl From<Command> for CompoundList`: a one-element list. -/
def CompoundList.fromCommand (cmd : Command) : CompoundList :=
  .mk [cmd]

/-- `cmd.asynchronous = b` on a `Command`. -/
def Command.withAsynchronous : Command → Bool → Command
  | .mk _ c r, b => .mk b c r

/-- `Parser` state: the not-yet-consumed token stream plus the single-slot
lookahead buffer (`lookahead: Option<Token>`). -/
structure PState where
  lookahead : Option Token
  rest : List Token
deriving DecidableEq, Repr

/-- The end-of-stream token the lexer yields once its input is exhausted. -/
def eofToken : Token :=
  { kind := .eof, start := ⟨0, 0⟩, endPos := ⟨0, 0⟩ }

/-- `Parser::next_token`: drain the lookahead slot, else pull from the
lexer; an exhausted stream keeps yielding end-of-stream tokens. -/
def next_token : PState → Token × PState
  | ⟨some t, rest⟩ => (t, ⟨none, rest⟩)
  | ⟨none, []⟩ => (eofToken, ⟨none, []⟩)
  | ⟨none, t :: rest⟩ => (t, ⟨none, rest⟩)

/-- `Parser::unget_token`: `assert!(self.lookahead.is_none())` then store.
A full slot is the assertion firing, modelled as `assertionFailed`. -/
def unget_token (t : Token) (s : PState) : Except ParseError PState :=
  match s.lookahead with
  | none => .ok ⟨some t, s.rest⟩
  | some _ => .error .assertionFailed

/-- `Parser::next_token_is`: consume the next token when it has the wanted
kind, else push it back. -/
def next_token_is (kind : TokenKind) (s : PState) : Except ParseError (Bool × PState) :=
  match next_token s with
  | (t, s1) =>
    if kind == t.kind then .ok (true, s1)
    else
      match unget_token t s1 with
      | .error e => .error e
      | .ok s2 => .ok (false, s2)

/-- `Parser::next_token_is_reserved_word`. -/
def next_token_is_reserved_word (w : ReservedWord) (s : PState) :
    Except ParseError (Bool × PState) :=
  match next_token s with
  | (t, s1) =>
    if t.is_reserved_word w then .ok (true, s1)
    else
      match unget_token t s1 with
      | .error e => .error e
      | .ok s2 => .ok (false, s2)

/-- `Parser::separator_op`: `;` is `Sync`, `&` is `Async`, anything else is
pushed back. -/
def separator_op (s : PState) : Except ParseError (Option Separator × PState) :=
  match next_token s with
  | (t, s1) =>
    match t.kind with
    | .operator .semicolon => .ok (some .sync, s1)
    | .operator .ampersand => .ok (some .async, s1)
    | _ =>
      match unget_token t s1 with
      | .error e => .error e
      | .ok s2 => .ok (none, s2)

/-- Loop body of `Parser::newline_list`, fueled. -/
def newline_list_go : Nat → Bool → PState → Except ParseError (Option Unit × PState)
  | 0, _, _ => .error .fuelExhausted
  | fuel + 1, saw_newline, s =>
    match next_token_is .newLine s with
    | .error e => .error e
    | .ok (true, s1) => newline_list_go fuel true s1
    | .ok (false, s1) =>
      if saw_newline then .ok (some (), s1) else .ok (none, s1)

/-- `Parser::newline_list`: one or more newlines, else `none`. -/
def newline_list (fuel : Nat) (s : PState) : Except ParseError (Option Unit × PState) :=
  newline_list_go fuel false s

/-- `Parser::linebreak`: an optional newline run; always succeeds. -/
def linebreak (fuel : Nat) (s : PState) : Except ParseError (Option Unit × PState) :=
  match newline_list fuel s with
  | .error e => .error e
  | .ok (_, s1) => .ok (some (), s1)

/-- `Parser::separator`: a `;`/`&` separator followed by a linebreak, or a
bare newline run (which counts as `Sync`). -/
def separator (fuel : Nat) (s : PState) : Except ParseError (Option Separator × PState) :=
  match separator_op s with
  | .error e => .error e
  | .ok (some sep, s1) =>
    match linebreak fuel s1 with
    | .error e => .error e
    | .ok (_, s2) => .ok (some sep, s2)
  | .ok (none, s1) =>
    match newline_list fuel s1 with
    | .error e => .error e
    | .ok (some _, s2) => .ok (some .sync, s2)
    | .ok (none, s2) => .ok (none, s2)

/-- `Parser::separator_is_async`: the optional separator, defaulted to
`Sync`, compared with `Async`. -/
def separator_is_async (fuel : Nat) (s : PState) : Except ParseError (Bool × PState) :=
  match separator fuel s with
  | .error e => .error e
  | .ok (sep, s1) => .ok ((sep.getD .sync) == .async, s1)

/-- Loop body of `Parser::simple_command`, fueled: greedily consume tokens,
collecting assignments and words, until a delimiter.  End-of-stream breaks;
`&` breaks and marks the simple command asynchronous; `;`, newline, `&&`,
`||` are pushed back and break; a word is an assignment when no word has
been collected yet and its text has assignment shape; any other kind is a
fatal `UnexpectedToken` carrying the token's start position. -/
def simple_command_go : Nat → List Token → List Token → Bool → PState →
    Except ParseError ((List Token × List Token × Bool) × PState)
  | 0, _, _, _, _ => .error .fuelExhausted
  | fuel + 1, assignments, words, asynchronous, s =>
    match next_token s with
    | (token, s1) =>
      match token.kind with
      | .eof => .ok ((assignments, words, asynchronous), s1)
      | .operator .ampersand => .ok ((assignments, words, true), s1)
      | .operator .semicolon =>
        (match unget_token token s1 with
         | .error e => .error e
         | .ok s2 => .ok ((assignments, words, asynchronous), s2))
      | .newLine =>
        (match unget_token token s1 with
         | .error e => .error e
         | .ok s2 => .ok ((assignments, words, asynchronous), s2))
      | .operator .andIf =>
        (match unget_token token s1 with
         | .error e => .error e
         | .ok s2 => .ok ((assignments, words, asynchronous), s2))
      | .operator .orIf =>
        (match unget_token token s1 with
         | .error e => .error e
         | .ok s2 => .ok ((assignments, words, asynchronous), s2))
      | .word text =>
        if words.isEmpty && (parse_assignment_word text).isSome then
          simple_command_go fuel (assignments ++ [token]) words asynchronous s1
        else
          simple_command_go fuel assignments (words ++ [token]) asynchronous s1
      | _ => .error (.unexpectedToken token.start)

/-- `Parser::simple_command`: run the collection loop; `none` when neither
assignments nor words were collected, else the `SimpleCommand`. -/
def simple_command (fuel : Nat) (s : PState) :
    Except ParseError (Option SimpleCommand × PState) :=
  match simple_command_go fuel [] [] false s with
  | .error e => .error e
  | .ok ((assignments, words, asynchronous), s1) =>
    if assignments.isEmpty && words.isEmpty then .ok (none, s1)
    else .ok (some ⟨assignments, [], [], words, asynchronous⟩, s1)

/-- `Parser::command`: currently only a simple command, wrapped with
`asynchronous = false` and no redirects. -/
def command (fuel : Nat) (s : PState) : Except ParseError (Option Command × PState) :=
  match simple_command fuel s with
  | .error e => .error e
  | .ok (none, s1) => .ok (none, s1)
  | .ok (some cmd, s1) => .ok (some (.mk false (.simpleCommand cmd) none), s1)

/-- Loop body of `Parser::pipe_sequence`, fueled: while the next token is
`|`, skip linebreaks and parse another command, failing fatally when none
follows. -/
def pipe_sequence_go : Nat → List Command → PState →
    Except ParseError (Option (List Command) × PState)
  | 0, _, _ => .error .fuelExhausted
  | fuel + 1, commands, s =>
    match next_token_is (.operator .pipe) s with
    | .error e => .error e
    | .ok (false, s1) => .ok (some commands, s1)
    | .ok (true, s1) =>
      match linebreak (fuel + 1) s1 with
      | .error e => .error e
      | .ok (_, s2) =>
        match command (fuel + 1) s2 with
        | .error e => .error e
        | .ok (some cmd, s3) => pipe_sequence_go fuel (commands ++ [cmd]) s3
        | .ok (none, _) => .error .expectedCommandAfterPipe

/-- `Parser::pipe_sequence`: one command then the `|` loop; `none` when no
first command is present. -/
def pipe_sequence (fuel : Nat) (s : PState) :
    Except ParseError (Option (List Command) × PState) :=
  match command fuel s with
  | .error e => .error e
  | .ok (none, s1) => .ok (none, s1)
  | .ok (some cmd, s1) => pipe_sequence_go fuel [cmd] s1

/-- `Parser::pipeline`: optional leading `!`, then a pipe sequence; `!` with
no command following is fatal. -/
def pipeline (fuel : Nat) (s : PState) : Except ParseError (Option Pipeline × PState) :=
  match next_token_is_reserved_word .bang s with
  | .error e => .error e
  | .ok (inverted, s1) =>
    match pipe_sequence fuel s1 with
    | .error e => .error e
    | .ok (some commands, s2) => .ok (some (.mk inverted commands), s2)
    | .ok (none, s2) =>
      if inverted then .error .expectedCommandAfterBang else .ok (none, s2)

/-- `Parser::pipeline_conditional`: after `&&`/`||`, skip linebreaks, parse
the following pipeline (fatal when missing), and build an `If` node whose
populated branch depends on the operator. -/
def pipeline_conditional (fuel : Nat) (condition : Pipeline) (op : Operator) (s : PState) :
    Except ParseError (Option Command × PState) :=
  match linebreak fuel s with
  | .error e => .error e
  | .ok (_, s1) =>
    match pipeline fuel s1 with
    | .error e => .error e
    | .ok (none, _) => .error (.missingPipelineAfter op)
    | .ok (some p, s2) =>
      let thenPart : CompoundList := CompoundList.fromCommand (Command.fromPipeline p)
      let conditionList : CompoundList :=
        CompoundList.fromCommand (Command.fromPipeline condition)
      let parts : Option CompoundList × Option CompoundList :=
        if op == .andIf then (some thenPart, none) else (none, some thenPart)
      .ok (some (Command.fromCommandType (.ifCmd (.mk conditionList parts.1 parts.2))), s2)

/-- `Parser::and_or`: a pipeline, optionally continued by `&&`/`||`; with no
continuation the pipeline collapses to a bare command. -/
def and_or (fuel : Nat) (s : PState) : Except ParseError (Option Command × PState) :=
  match pipeline fuel s with
  | .error e => .error e
  | .ok (none, s1) => .ok (none, s1)
  | .ok (some p, s1) =>
    match next_token_is (.operator .andIf) s1 with
    | .error e => .error e
    | .ok (true, s2) => pipeline_conditional fuel p .andIf s2
    | .ok (false, s2) =>
      match next_token_is (.operator .orIf) s2 with
      | .error e => .error e
      | .ok (true, s3) => pipeline_conditional fuel p .orIf s3
      | .ok (false, s3) => .ok (some (Command.fromPipeline p), s3)

/-- Loop of `Parser::parse` after the first command: collect further
`and_or`s, resolving each trailing separator; a missing `and_or` ends the
loop with the accumulated list. -/
def parse_go : Nat → List Command → PState → Except ParseError (CompoundList × PState)
  | 0, _, _ => .error .fuelExhausted
  | fuel + 1, commands, s =>
    match and_or (fuel + 1) s with
    | .error e => .error e
    | .ok (none, s1) => .ok (.mk commands, s1)
    | .ok (some cmd, s1) =>
      match separator_is_async (fuel + 1) s1 with
      | .error e => .error e
      | .ok (b, s2) => parse_go fuel (commands ++ [cmd.withAsynchronous b]) s2

/-- `Parser::parse`: the first `and_or` (with the empty-input/`expected
and_or` discrimination), then the collection loop. -/
def parse (fuel : Nat) (s : PState) : Except ParseError (CompoundList × PState) :=
  match and_or fuel s with
  | .error e => .error e
  | .ok (none, s1) =>
    (match next_token_is .eof s1 with
     | .error e => .error e
     | .ok (true, s2) => .ok (.mk [], s2)
     | .ok (false, _) => .error .expectedAndOr)
  | .ok (some cmd, s1) =>
    match separator_is_async fuel s1 with
    | .error e => .error e
    | .ok (b, s2) => parse_go fuel [cmd.withAsynchronous b] s2

/-- Entry point: parse a finite token stream, with fuel ample for it (each
loop iteration permanently consumes at least one stream token). -/
def parseStream (tokens : List Token) : Except ParseError (CompoundList × PState) :=
  parse (tokens.length + 1) ⟨none, tokens⟩

/-- A word token that is not assignment-shaped: the "plain word" of the
spec's simple-command property. -/
def plainWordTok (t : Token) : Bool :=
  match t.kind with
  | .word text => (parse_assignment_word text).isNone
  | _ => false

/-- The bare `Command` a list of plain words parses to. -/
def simpleCmdOf (ws : List Token) : Command :=
  .mk false (.simpleCommand ⟨[], [], [], ws, false⟩) none

/-- Token constructors for concrete inputs. -/
def wordTok (text : String) : Token := ⟨.word text, ⟨0, 0⟩, ⟨0, 0⟩⟩

def ampTok : Token := ⟨.operator .ampersand, ⟨0, 4⟩, ⟨0, 4⟩⟩

def semiTok : Token := ⟨.operator .semicolon, ⟨0, 4⟩, ⟨0, 4⟩⟩

def andIfTok : Token := ⟨.operator .andIf, ⟨0, 5⟩, ⟨0, 6⟩⟩

def orIfTok : Token := ⟨.operator .orIf, ⟨0, 5⟩, ⟨0, 6⟩⟩

def pipeTok : Token := ⟨.operator .pipe, ⟨0, 5⟩, ⟨0, 5⟩⟩

def bangTok : Token := ⟨.reservedWord .bang, ⟨0, 0⟩, ⟨0, 0⟩⟩

/-- `LexErrorKind` of the lexer crate, as enumerated by the driver's match
in `repl.rs`. -/
inductive LexErrorKind where
  | eofDuringBackslash
  | eofDuringComment
  | eofDuringSingleQuotedString
  | eofDuringDoubleQuotedString
  | eofDuringAssignmentWord
  | eofDuringCommandSubstitution
  | eofDuringParameterExpansion
  | ioError
deriving DecidableEq, Repr

/-- The parser error kind the driver downcasts to (`ParseErrorKind` of the
parser crate as matched in `repl.rs`): `UnexpectedToken(..)`. -/
inductive DriverParseError where
  | unexpectedToken (t : Token)
deriving DecidableEq, Repr

/-- A dynamic error value as the driver classifies it: a lexer error, a
parser error, or anything else (neither downcast succeeds). -/
inductive ShellError where
  | lexError (k : LexErrorKind)
  | parseError (k : DriverParseError)
  | otherError
deriving DecidableEq, Repr

/-- `is_recoverable_parse_error` of `repl.rs`: true exactly for the lexical
errors that more input on a following line might resolve. -/
def is_recoverable_parse_error : ShellError → Bool
  | .lexError k =>
    (match k with
     | .eofDuringBackslash => true
     | .eofDuringComment => true
     | .eofDuringSingleQuotedString => true
     | .eofDuringDoubleQuotedString => true
     | .eofDuringAssignmentWord => true
     | .eofDuringCommandSubstitution => true
     | .eofDuringParameterExpansion => true
     | .ioError => false)
  | .parseError k =>
    (match k with
     | .unexpectedToken _ => false)
  | .otherError => false

/-- The failures `SimpleCommand::expand_argv` can produce: the
`bail!("unhandled token kind ...")` programming-error, or a failure
propagated from the expander capability. -/
inductive ExpandError where
  | unhandledToken
  | expanderFailed
deriving DecidableEq, Repr

/-- Loop of `SimpleCommand::expand_argv` over `self.words`, carrying the
`argv` accumulator: while `argv` is empty the word first has the
alias/command-word rules applied; a word/name kind is expanded and its
fields appended; any other kind is the programming-error bail.  The
expander and alias table are the external capabilities of §4.2, passed as
functions; the environment is threaded because expansion may mutate it. -/
def expand_argv_go {Env Aliases : Type}
    (applyCommandWordRules : Option Aliases → Token → Token)
    (expandWord : String → Env → Except Unit (List String × Env))
    (aliases : Aliases) :
    List String → List Token → Env → Except ExpandError (List String × Env)
  | argv, [], env => .ok (argv, env)
  | argv, word :: rest, env =>
    let word1 := if argv.isEmpty then applyCommandWordRules (some aliases) word else word
    match word1.kind with
    | .word text =>
      (match expandWord text env with
       | .error _ => .error .expanderFailed
       | .ok (fields, env1) =>
         expand_argv_go applyCommandWordRules expandWord aliases (argv ++ fields) rest env1)
    | .name text =>
      (match expandWord text env with
       | .error _ => .error .expanderFailed
       | .ok (fields, env1) =>
         expand_argv_go applyCommandWordRules expandWord aliases (argv ++ fields) rest env1)
    | _ => .error .unhandledToken

/-- `SimpleCommand::expand_argv`: expand the command's words into argv
fields, in word order. -/
def expand_argv {Env Aliases : Type}
    (applyCommandWordRules : Option Aliases → Token → Token)
    (expandWord : String → Env → Except Unit (List String × Env))
    (aliases : Aliases) (words : List Token) (env : Env) :
    Except ExpandError (List String × Env) :=
  expand_argv_go applyCommandWordRules expandWord aliases [] words env

/-- A token kind the expansion stage handles: word or name. -/
def isWordOrName : TokenKind → Bool
  | .word _ => true
  | .name _ => true
  | _ => false

/-- Follows the amended claim's words: expand a list of words in order
without applying command-word rules to any of them, concatenating the
produced fields and threading the environment. -/
def expand_words_as_is {Env : Type}
    (expandWord : String → Env → Except Unit (List String × Env)) :
    List Token → Env → Except ExpandError (List String × Env)
  | [], env => .ok ([], env)
  | t :: rest, env =>
    match t.kind with
    | .word text =>
      (match expandWord text env with
       | .error _ => .error .expanderFailed
       | .ok (fields, env1) =>
         match expand_words_as_is expandWord rest env1 with
         | .error e => .error e
         | .ok (fields2, env2) => .ok (fields ++ fields2, env2))
    | .name text =>
      (match expandWord text env with
       | .error _ => .error .expanderFailed
       | .ok (fields, env1) =>
         match expand_words_as_is expandWord rest env1 with
         | .error e => .error e
         | .ok (fields2, env2) => .ok (fields ++ fields2, env2))
    | _ => .error .unhandledToken

/-- Kind-goodness of a word list as `expand_argv` processes it when every
expansion yields at least one field: the first word after the command-word
rewrite, the rest as they stand, must all be word/name kinds. -/
def good_expand_kinds {Aliases : Type}
    (applyCommandWordRules : Option Aliases → Token → Token) (aliases : Aliases) :
    List Token → Bool
  | [] => true
  | w :: rest =>
    isWordOrName (applyCommandWordRules (some aliases) w).kind &&
      rest.all (fun t => isWordOrName t.kind)

/-- Concrete capability instantiations exercising `expand_argv`: a rewrite
that tags the word text, and an expander for which the tagged first word
expands to zero fields. -/
def c8Rules : Option Unit → Token → Token :=
  fun _ t =>
    { t with kind := match t.kind with
                     | .word text => .word (text ++ "~")
                     | k => k }

def c8Expand : String → Unit → Except Unit (List String × Unit) :=
  fun text u => if text = "a~" then .ok ([], u) else .ok ([text], u)

/-- The user-visible steps the interactive loop takes inside one `Ok(line)`
iteration after `compile_and_run` returns, in order, before control returns
to the top of the loop (and hence before the next prompt). -/
inductive ReplAction where
  | printError
  | clearInput
  | pushNewline
  | putShellInForeground
deriving DecidableEq, Repr

/-- Modelled from the spec: the compiler/VM interface of §6 is
`compile(CompoundList) -> Program | CompileError` and
`run(Program, Environment) -> (ExitStatus, new_cwd, new_Environment)` — a
run, once started, always yields a status.  `compile_and_run` of `repl.rs`
therefore fails only in its lex/parse/compile front end, before any command
executes, and otherwise returns the run's status; the Boolean records
whether a command was executed. -/
def compile_and_run {Status : Type} (frontEnd : Except ShellError Unit)
    (runStatus : Status) : Except ShellError Status × Bool :=
  match frontEnd with
  | .error _ => (frontEnd.map (fun _ => runStatus), false)
  | .ok _ => (.ok runStatus, true)

/-- The `Ok(line)` arm of the `repl` loop in `repl.rs`: on an error that is
not recoverable, print it and clear the buffer; on a recoverable error,
push a newline and wait for more input; on success, clear the buffer and
put the shell back in the foreground.  The returned list is everything the
iteration does after `compile_and_run`, in order. -/
def repl_iteration_actions {Status : Type} : Except ShellError Status → List ReplAction
  | .error e =>
    if is_recoverable_parse_error e then [.pushNewline] else [.printError, .clearInput]
  | .ok _ => [.clearInput, .putShellInForeground]

/-- Well-formedness of a command tree: every `Pipeline` node is non-empty
and is either inverted or has at least two stages — i.e. the tree carries
no redundant single-stage, non-inverted pipeline wrapper and no empty
pipeline. -/
inductive GoodCmd : Command → Prop where
  | simple (a : Bool) (sc : SimpleCommand) (r : Option RedirectList) :
      GoodCmd (.mk a (.simpleCommand sc) r)
  | pipe (a : Bool) (inv : Bool) (cs : List Command) (r : Option RedirectList)
      (hne : cs ≠ []) (hlen : inv = true ∨ 2 ≤ cs.length)
      (hall : ∀ c ∈ cs, GoodCmd c) :
      GoodCmd (.mk a (.pipeline (.mk inv cs)) r)
  | brace (a : Bool) (cs : List Command) (r : Option RedirectList)
      (hall : ∀ c ∈ cs, GoodCmd c) :
      GoodCmd (.mk a (.braceGroup (.mk cs)) r)
  | sub (a : Bool) (cs : List Command) (r : Option RedirectList)
      (hall : ∀ c ∈ cs, GoodCmd c) :
      GoodCmd (.mk a (.subshell (.mk cs)) r)
  | forE (a : Bool) (wl : List Token) (cs : List Command) (r : Option RedirectList)
      (hall : ∀ c ∈ cs, GoodCmd c) :
      GoodCmd (.mk a (.forEach (.mk wl (.mk cs))) r)
  | ifC (a : Bool) (cond : List Command) (tp fp : Option CompoundList)
      (r : Option RedirectList)
      (hcond : ∀ c ∈ cond, GoodCmd c)
      (htp : ∀ l, tp = some l → ∀ c ∈ l.commands, GoodCmd c)
      (hfp : ∀ l, fp = some l → ∀ c ∈ l.commands, GoodCmd c) :
      GoodCmd (.mk a (.ifCmd (.mk (.mk cond) tp fp)) r)
  | untilC (a : Bool) (body cond : List Command) (r : Option RedirectList)
      (hbody : ∀ c ∈ body, GoodCmd c) (hcond : ∀ c ∈ cond, GoodCmd c) :
      GoodCmd (.mk a (.untilLoop (.mk (.mk body) (.mk cond))) r)
  | whileC (a : Bool) (cond body : List Command) (r : Option RedirectList)
      (hcond : ∀ c ∈ cond, GoodCmd c) (hbody : ∀ c ∈ body, GoodCmd c) :
      GoodCmd (.mk a (.whileLoop (.mk (.mk cond) (.mk body))) r)

/-- `parse`/`and_or` etc. can never produce the `assertionFailed` outcome;
this Boolean observation is what the lookahead-invariant claims are stated
with. -/
def notAssertion {α : Type} : Except ParseError α → Bool
  | .error .assertionFailed => false
  | _ => true

theorem plainWordTok_spec {t : Token} (h : plainWordTok t = true) :
    ∃ text, t.kind = .word text ∧ parse_assignment_word text = none := by
  unfold plainWordTok at h
  cases htk : t.kind <;> rw [htk] at h <;> simp_all

theorem next_token_snd_lookahead (s : PState) : (next_token s).2.lookahead = none := by
  rcases s with ⟨la, rest⟩
  cases la <;> cases rest <;> rfl

theorem unget_token_of_none {t : Token} {s : PState} (h : s.lookahead = none) :
    unget_token t s = .ok ⟨some t, s.rest⟩ := by
  simp [unget_token, h]

theorem next_token_is_shift (k : TokenKind) (t : Token) (l : List Token) :
    next_token_is k ⟨some t, l⟩ = next_token_is k ⟨none, t :: l⟩ := rfl

theorem simple_command_go_shift (fuel : Nat) (a w : List Token) (b : Bool)
    (t : Token) (l : List Token) :
    simple_command_go fuel a w b ⟨some t, l⟩ = simple_command_go fuel a w b ⟨none, t :: l⟩ := by
  cases fuel <;> rfl

theorem ntirw_word (t : Token) (l : List Token) (text : String) (htk : t.kind = .word text) :
    next_token_is_reserved_word .bang ⟨none, t :: l⟩ = .ok (false, ⟨some t, l⟩) := by
  simp [next_token_is_reserved_word, next_token, Token.is_reserved_word, htk, unget_token]

theorem ntirw_look (t : Token) (l : List Token) (text : String) (htk : t.kind = .word text) :
    next_token_is_reserved_word .bang ⟨some t, l⟩ = .ok (false, ⟨some t, l⟩) :=
  ntirw_word t l text htk

theorem simple_command_go_word_step (n : Nat) (a w : List Token) (b : Bool)
    (t : Token) (l : List Token) (text : String)
    (htk : t.kind = .word text) (hpa : parse_assignment_word text = none) :
    simple_command_go (n + 1) a w b ⟨none, t :: l⟩ =
      simple_command_go n a (w ++ [t]) b ⟨none, l⟩ := by
  simp [simple_command_go, next_token, htk, hpa]

theorem simple_command_go_words (ws : List Token) (h : ∀ t ∈ ws, plainWordTok t = true)
    (n : Nat) (tail : List Token) (a w : List Token) (b : Bool) :
    simple_command_go (ws.length + n) a w b ⟨none, ws ++ tail⟩ =
      simple_command_go n a (w ++ ws) b ⟨none, tail⟩ := by
  induction ws generalizing w with
  | nil => simp
  | cons t ws2 ih =>
    obtain ⟨text, htk, hpa⟩ := plainWordTok_spec (h t (List.mem_cons_self t ws2))
    have step := simple_command_go_word_step (ws2.length + n) a w b t (ws2 ++ tail) text htk hpa
    calc simple_command_go ((t :: ws2).length + n) a w b ⟨none, (t :: ws2) ++ tail⟩
        = simple_command_go (ws2.length + n + 1) a w b ⟨none, t :: (ws2 ++ tail)⟩ := by
          simp [Nat.add_right_comm]
      _ = simple_command_go (ws2.length + n) a (w ++ [t]) b ⟨none, ws2 ++ tail⟩ := step
      _ = simple_command_go n a ((w ++ [t]) ++ ws2) b ⟨none, tail⟩ := by
          exact ih (fun u hu => h u (List.mem_cons_of_mem t hu)) (w ++ [t])
      _ = simple_command_go n a (w ++ (t :: ws2)) b ⟨none, tail⟩ := by
          simp

theorem simple_command_go_nil (n : Nat) (a w : List Token) (b : Bool) :
    simple_command_go (n + 1) a w b ⟨none, []⟩ = .ok ((a, w, b), ⟨none, []⟩) := rfl

theorem simple_command_go_eof_look (n : Nat) (a w : List Token) (b : Bool) :
    simple_command_go (n + 1) a w b ⟨some eofToken, []⟩ = .ok ((a, w, b), ⟨none, []⟩) := rfl

theorem simple_command_go_amp (n : Nat) (a w : List Token) (b : Bool) (l : List Token) :
    simple_command_go (n + 1) a w b ⟨none, ampTok :: l⟩ = .ok ((a, w, true), ⟨none, l⟩) := rfl

theorem simple_command_go_andIf (n : Nat) (a w : List Token) (b : Bool) (l : List Token) :
    simple_command_go (n + 1) a w b ⟨none, andIfTok :: l⟩ =
      .ok ((a, w, b), ⟨some andIfTok, l⟩) := rfl

theorem simple_command_go_orIf (n : Nat) (a w : List Token) (b : Bool) (l : List Token) :
    simple_command_go (n + 1) a w b ⟨none, orIfTok :: l⟩ =
      .ok ((a, w, b), ⟨some orIfTok, l⟩) := rfl

theorem simple_command_go_pipe (n : Nat) (a w : List Token) (b : Bool) (l : List Token) :
    simple_command_go (n + 1) a w b ⟨none, pipeTok :: l⟩ =
      .error (.unexpectedToken pipeTok.start) := rfl

theorem pipe_sequence_go_nil (m : Nat) (cs : List Command) :
    pipe_sequence_go (m + 1) cs ⟨none, []⟩ = .ok (some cs, ⟨some eofToken, []⟩) := rfl

theorem pipe_sequence_go_andIf_look (m : Nat) (cs : List Command) (l : List Token) :
    pipe_sequence_go (m + 1) cs ⟨some andIfTok, l⟩ = .ok (some cs, ⟨some andIfTok, l⟩) := rfl

theorem pipe_sequence_go_orIf_look (m : Nat) (cs : List Command) (l : List Token) :
    pipe_sequence_go (m + 1) cs ⟨some orIfTok, l⟩ = .ok (some cs, ⟨some orIfTok, l⟩) := rfl

theorem pipeline_words (ws : List Token) (h : ∀ t ∈ ws, plainWordTok t = true)
    (hne : ws ≠ []) (n fuel : Nat) (hf : ws.length + (n + 1) = fuel)
    (tail : List Token) (b : Bool) (s1 : PState)
    (hgo : simple_command_go (n + 1) [] ws false ⟨none, tail⟩ = .ok (([], ws, b), s1)) :
    pipeline fuel ⟨none, ws ++ tail⟩ =
      (match pipe_sequence_go fuel
          [.mk false (.simpleCommand ⟨[], [], [], ws, b⟩) none] s1 with
       | .error e => .error e
       | .ok (some commands, s2) => .ok (some (.mk false commands), s2)
       | .ok (none, s2) => .ok (none, s2)) := by
  subst hf
  obtain ⟨t, ws2, rfl⟩ := List.exists_cons_of_ne_nil hne
  obtain ⟨text, htk, hpa⟩ := plainWordTok_spec (h t (List.mem_cons_self t ws2))
  have hrun := simple_command_go_words (t :: ws2) h (n + 1) tail [] [] false
  rw [List.nil_append] at hrun
  rw [hgo] at hrun
  rw [List.cons_append] at hrun
  unfold pipeline
  rw [List.cons_append, ntirw_word t (ws2 ++ tail) text htk]
  simp only [pipe_sequence, command, simple_command, simple_command_go_shift]
  rw [hrun]
  simp

theorem sia_eof_look (m : Nat) :
    separator_is_async (m + 1) ⟨some eofToken, []⟩ = .ok (false, ⟨some eofToken, []⟩) := rfl

theorem and_or_eof_look (m : Nat) :
    and_or (m + 1) ⟨some eofToken, []⟩ = .ok (none, ⟨none, []⟩) := rfl

theorem parse_go_eof_look (m : Nat) (cs : List Command) :
    parse_go (m + 1) cs ⟨some eofToken, []⟩ = .ok (.mk cs, ⟨none, []⟩) := rfl

theorem nti_andIf_eof_look :
    next_token_is (.operator .andIf) ⟨some eofToken, []⟩ = .ok (false, ⟨some eofToken, []⟩) := rfl

theorem nti_orIf_eof_look :
    next_token_is (.operator .orIf) ⟨some eofToken, []⟩ = .ok (false, ⟨some eofToken, []⟩) := rfl

/-- C1: a token stream of plain words (no assignments, separators, or
operators) parses to exactly one `SimpleCommand` whose `words` are the
input tokens in order and whose assignments and redirect lists are empty. -/
theorem c1_plain_words_simple_command (ws : List Token) (hne : ws ≠ [])
    (h : ∀ t ∈ ws, plainWordTok t = true) :
    parseStream ws = .ok (.mk [simpleCmdOf ws], ⟨none, []⟩) := by
  unfold parseStream parse
  have hpl := pipeline_words ws h hne 0 (ws.length + 1) (by omega) [] false ⟨none, []⟩
    (simple_command_go_nil 0 [] ws false)
  rw [List.append_nil] at hpl
  unfold and_or
  rw [hpl, pipe_sequence_go_nil]
  simp only [nti_andIf_eof_look, nti_orIf_eof_look, sia_eof_look, parse_go_eof_look,
    Command.fromPipeline, Command.withAsynchronous, simpleCmdOf]

theorem c1_plain_words_simple_command_witness :
    parseStream [wordTok "ls", wordTok "-l", wordTok "foo"] =
      .ok (.mk [simpleCmdOf [wordTok "ls", wordTok "-l", wordTok "foo"]], ⟨none, []⟩) :=
  c1_plain_words_simple_command [wordTok "ls", wordTok "-l", wordTok "foo"]
    (by decide) (by decide)

/-- C2 counterexample: for the token stream of `cmd &`, the `Command` that
`parse()` returns has `asynchronous = false`; the `&` was consumed inside
`simple_command`, which recorded it on the `SimpleCommand`'s own
`asynchronous` field instead, and the trailing-separator resolution in
`parse` found no separator. -/
theorem c2_counterexample :
    parseStream [wordTok "cmd", ampTok] =
      .ok (.mk [.mk false (.simpleCommand ⟨[], [], [], [wordTok "cmd"], true⟩) none],
        ⟨none, []⟩) ∧
    (Command.mk false (.simpleCommand ⟨[], [], [], [wordTok "cmd"], true⟩) none).asynchronous
      = false ∧
    (SimpleCommand.mk [] [] [] [wordTok "cmd"] true).asynchronous = true := by
  exact ⟨rfl, rfl, rfl⟩

/-- C2 amended: when a simple command's tokens are followed by `&`,
`simple_command` consumes the `&` and sets the `SimpleCommand`'s
`asynchronous` field to true, while the enclosing `Command`'s `asynchronous`
flag is left false because the trailing-separator resolution in `parse` no
longer sees the `&`. -/
theorem c2_amended_async_on_simple_command (ws : List Token) (hne : ws ≠ [])
    (h : ∀ t ∈ ws, plainWordTok t = true) :
    parseStream (ws ++ [ampTok]) =
      .ok (.mk [.mk false (.simpleCommand ⟨[], [], [], ws, true⟩) none], ⟨none, []⟩) := by
  unfold parseStream parse
  rw [show (ws ++ [ampTok]).length + 1 = ws.length + 1 + 1 by simp]
  have hpl := pipeline_words ws h hne 1 (ws.length + 1 + 1) (by omega) [ampTok] true
    ⟨none, []⟩ (simple_command_go_amp 1 [] ws false [])
  unfold and_or
  rw [hpl, pipe_sequence_go_nil]
  simp only [nti_andIf_eof_look, nti_orIf_eof_look, sia_eof_look, parse_go_eof_look,
    Command.fromPipeline, Command.withAsynchronous]

theorem c2_amended_async_on_simple_command_witness :
    parseStream [wordTok "cmd", ampTok] =
      .ok (.mk [.mk false (.simpleCommand ⟨[], [], [], [wordTok "cmd"], true⟩) none],
        ⟨none, []⟩) := by
  have := c2_amended_async_on_simple_command [wordTok "cmd"] (by decide) (by decide)
  simpa using this

theorem nti_andIf_self (l : List Token) :
    next_token_is (.operator .andIf) ⟨some andIfTok, l⟩ = .ok (true, ⟨none, l⟩) := rfl

theorem nti_andIf_orTok (l : List Token) :
    next_token_is (.operator .andIf) ⟨some orIfTok, l⟩ = .ok (false, ⟨some orIfTok, l⟩) := rfl

theorem nti_orIf_self (l : List Token) :
    next_token_is (.operator .orIf) ⟨some orIfTok, l⟩ = .ok (true, ⟨none, l⟩) := rfl

theorem linebreak_word (m : Nat) (t : Token) (l : List Token) (text : String)
    (htk : t.kind = .word text) :
    linebreak (m + 1) ⟨none, t :: l⟩ = .ok (some (), ⟨some t, l⟩) := by
  simp [linebreak, newline_list, newline_list_go, next_token_is, next_token, htk, unget_token]

theorem pipeline_shift (fuel : Nat) (t : Token) (l : List Token) :
    pipeline fuel ⟨some t, l⟩ = pipeline fuel ⟨none, t :: l⟩ := rfl

theorem pipeline_conditional_words (cond : Pipeline) (op : Operator)
    (ws2 : List Token) (hne2 : ws2 ≠ []) (h2 : ∀ t ∈ ws2, plainWordTok t = true)
    (n fuel : Nat) (hf : ws2.length + (n + 1) = fuel) :
    pipeline_conditional fuel cond op ⟨none, ws2⟩ =
      .ok (some (.mk false (.ifCmd (.mk (.mk [Command.fromPipeline cond])
        (if op == .andIf then some (.mk [simpleCmdOf ws2]) else none)
        (if op == .andIf then none else some (.mk [simpleCmdOf ws2])))) none),
        ⟨some eofToken, []⟩) := by
  obtain ⟨u, l, rfl⟩ := List.exists_cons_of_ne_nil hne2
  obtain ⟨text, htk, hpa⟩ := plainWordTok_spec (h2 u (List.mem_cons_self u l))
  obtain ⟨m, rfl⟩ : ∃ m, fuel = m + 1 := ⟨(u :: l).length + n, by omega⟩
  have hpl := pipeline_words (u :: l) h2 (by simp) n (m + 1) hf [] false ⟨none, []⟩
    (simple_command_go_nil n [] (u :: l) false)
  rw [List.append_nil] at hpl
  unfold pipeline_conditional
  rw [linebreak_word m u l text htk]
  simp only [pipeline_shift]
  rw [hpl, pipe_sequence_go_nil]
  by_cases hop : op = Operator.andIf <;>
    simp [hop, Command.fromPipeline, Command.fromCommandType, CompoundList.fromCommand,
      simpleCmdOf]

/-- C3: `cmd1 && cmd2` parses to an `If` whose condition wraps `cmd1` as a
one-element list, whose `true_part` wraps `cmd2`, and whose `false_part` is
none; `cmd1 || cmd2` is the mirror; and any node built by
`pipeline_conditional` has at most one branch populated. -/
theorem c3_conditional_if_shape (ws1 ws2 : List Token) (hne1 : ws1 ≠ []) (hne2 : ws2 ≠ [])
    (h1 : ∀ t ∈ ws1, plainWordTok t = true) (h2 : ∀ t ∈ ws2, plainWordTok t = true) :
    (parseStream (ws1 ++ andIfTok :: ws2) =
      .ok (.mk [.mk false (.ifCmd (.mk (.mk [simpleCmdOf ws1])
        (some (.mk [simpleCmdOf ws2])) none)) none], ⟨none, []⟩)) ∧
    (parseStream (ws1 ++ orIfTok :: ws2) =
      .ok (.mk [.mk false (.ifCmd (.mk (.mk [simpleCmdOf ws1])
        none (some (.mk [simpleCmdOf ws2])))) none], ⟨none, []⟩)) ∧
    (∀ fuel p op s c s2, pipeline_conditional fuel p op s = .ok (some c, s2) →
      ∃ i, c.command = .ifCmd i ∧ (i.true_part = none ∨ i.false_part = none)) := by
  refine ⟨?_, ?_, ?_⟩
  · unfold parseStream parse
    have hpl := pipeline_words ws1 h1 hne1 (ws2.length + 1)
      ((ws1 ++ andIfTok :: ws2).length + 1)
      (by simp only [List.length_append, List.length_cons]; omega) (andIfTok :: ws2) false
      ⟨some andIfTok, ws2⟩ (simple_command_go_andIf (ws2.length + 1) [] ws1 false ws2)
    have hcond := pipeline_conditional_words
      (.mk false [.mk false (.simpleCommand ⟨[], [], [], ws1, false⟩) none]) .andIf
      ws2 hne2 h2 (ws1.length + 1) ((ws1 ++ andIfTok :: ws2).length + 1)
      (by simp only [List.length_append, List.length_cons]; omega)
    unfold and_or
    rw [hpl, pipe_sequence_go_andIf_look]
    simp only [nti_andIf_self]
    rw [hcond]
    simp only [sia_eof_look, parse_go_eof_look, Command.fromPipeline,
      Command.withAsynchronous, simpleCmdOf]
    simp
  · unfold parseStream parse
    have hpl := pipeline_words ws1 h1 hne1 (ws2.length + 1)
      ((ws1 ++ orIfTok :: ws2).length + 1)
      (by simp only [List.length_append, List.length_cons]; omega) (orIfTok :: ws2) false
      ⟨some orIfTok, ws2⟩ (simple_command_go_orIf (ws2.length + 1) [] ws1 false ws2)
    have hcond := pipeline_conditional_words
      (.mk false [.mk false (.simpleCommand ⟨[], [], [], ws1, false⟩) none]) .orIf
      ws2 hne2 h2 (ws1.length + 1) ((ws1 ++ orIfTok :: ws2).length + 1)
      (by simp only [List.length_append, List.length_cons]; omega)
    unfold and_or
    rw [hpl, pipe_sequence_go_orIf_look]
    simp only [nti_andIf_orTok, nti_orIf_self]
    rw [hcond]
    simp only [sia_eof_look, parse_go_eof_look, Command.fromPipeline,
      Command.withAsynchronous, simpleCmdOf]
    simp
  · intro fuel p op s c s2 hpc
    unfold pipeline_conditional at hpc
    split at hpc
    · exact absurd hpc (by simp)
    · split at hpc
      · exact absurd hpc (by simp)
      · exact absurd hpc (by simp)
      · injection hpc with hpair
        injection hpair with hsome hs2
        injection hsome with hc
        subst hc
        refine ⟨_, rfl, ?_⟩
        by_cases hop : op = Operator.andIf
        · right
          simp [hop, If.false_part]
        · left
          simp [hop, If.true_part]

theorem c3_conditional_if_shape_witness :
    parseStream [wordTok "a", andIfTok, wordTok "b"] =
      .ok (.mk [.mk false (.ifCmd (.mk (.mk [simpleCmdOf [wordTok "a"]])
        (some (.mk [simpleCmdOf [wordTok "b"]])) none)) none], ⟨none, []⟩) := by
  have := (c3_conditional_if_shape [wordTok "a"] [wordTok "b"] (by decide) (by decide)
    (by decide) (by decide)).1
  simpa using this

theorem linebreak_eof_nil (m : Nat) :
    linebreak (m + 1) ⟨none, []⟩ = .ok (some (), ⟨some eofToken, []⟩) := rfl

theorem pipeline_eof_look (m : Nat) :
    pipeline (m + 1) ⟨some eofToken, []⟩ = .ok (none, ⟨none, []⟩) := rfl

theorem pipeline_conditional_empty (m : Nat) (cond : Pipeline) (op : Operator) :
    pipeline_conditional (m + 1) cond op ⟨none, []⟩ = .error (.missingPipelineAfter op) := rfl

/-- C4: each truncated committed construct is a fatal parse error: `cmd |`
followed by end-of-stream (raised as `UnexpectedToken` at the `|`, which
`simple_command` does not treat as a delimiter), `!` followed by
end-of-stream, and `cmd &&` / `cmd ||` followed by end-of-stream. -/
theorem c4_truncated_constructs_fatal (w : Token) (hw : plainWordTok w = true) :
    (parseStream [w, pipeTok] = .error (.unexpectedToken pipeTok.start)) ∧
    (parseStream [bangTok] = .error .expectedCommandAfterBang) ∧
    (parseStream [w, andIfTok] = .error (.missingPipelineAfter .andIf)) ∧
    (parseStream [w, orIfTok] = .error (.missingPipelineAfter .orIf)) := by
  obtain ⟨text, htk, hpa⟩ := plainWordTok_spec hw
  have hws : ∀ t ∈ [w], plainWordTok t = true := by
    intro t ht
    obtain rfl := List.mem_singleton.mp ht
    exact hw
  refine ⟨?_, rfl, ?_, ?_⟩
  · unfold parseStream parse and_or pipeline
    rw [show [w, pipeTok].length + 1 = 1 + 1 + 1 from rfl]
    rw [ntirw_word w [pipeTok] text htk]
    simp only [pipe_sequence, command, simple_command, simple_command_go_shift]
    rw [simple_command_go_word_step (1 + 1) [] [] false w [pipeTok] text htk hpa,
      List.nil_append, simple_command_go_pipe 1 [] [w] false []]
  · unfold parseStream parse and_or
    have hpl := pipeline_words [w] hws (by simp) 1 ([w, andIfTok].length + 1) (by simp)
      [andIfTok] false ⟨some andIfTok, []⟩ (simple_command_go_andIf 1 [] [w] false [])
    rw [List.singleton_append] at hpl
    rw [hpl, pipe_sequence_go_andIf_look]
    simp only [nti_andIf_self, pipeline_conditional_empty]
  · unfold parseStream parse and_or
    have hpl := pipeline_words [w] hws (by simp) 1 ([w, orIfTok].length + 1) (by simp)
      [orIfTok] false ⟨some orIfTok, []⟩ (simple_command_go_orIf 1 [] [w] false [])
    rw [List.singleton_append] at hpl
    rw [hpl, pipe_sequence_go_orIf_look]
    simp only [nti_andIf_orTok, nti_orIf_self, pipeline_conditional_empty]

theorem c4_truncated_constructs_fatal_witness :
    (parseStream [wordTok "a", pipeTok] = .error (.unexpectedToken pipeTok.start)) ∧
    (parseStream [bangTok] = .error .expectedCommandAfterBang) ∧
    (parseStream [wordTok "a", andIfTok] = .error (.missingPipelineAfter .andIf)) ∧
    (parseStream [wordTok "a", orIfTok] = .error (.missingPipelineAfter .orIf)) :=
  c4_truncated_constructs_fatal (wordTok "a") (by decide)

/-- C5 counterexample: on a later loop iteration a missing `and_or` with the
stream not at end-of-stream does not fail — `x ; ;` parses to one command,
leaving the second `;` unconsumed — and on the first iteration the failure
is the dedicated "expected and_or" bail, not `ParseErrorKind::UnexpectedToken`. -/
theorem c5_counterexample :
    parseStream [wordTok "x", semiTok, semiTok] =
      .ok (.mk [simpleCmdOf [wordTok "x"]], ⟨some semiTok, []⟩) ∧
    parseStream [semiTok] = .error .expectedAndOr := ⟨rfl, rfl⟩

/-- C5 amended: only on the first iteration does `parse` discriminate on
end-of-stream after a missing `and_or` — returning the empty list at
end-of-stream (so empty input is valid) and failing with the generic
"expected and_or" error otherwise; on every later iteration a missing
`and_or` simply ends the loop with the list accumulated so far. -/
theorem c5_amended_first_iteration_discriminates :
    (∀ fuel (s s1 s2 : PState), and_or fuel s = .ok (none, s1) →
      next_token_is .eof s1 = .ok (true, s2) → parse fuel s = .ok (.mk [], s2)) ∧
    (∀ fuel (s s1 s2 : PState), and_or fuel s = .ok (none, s1) →
      next_token_is .eof s1 = .ok (false, s2) → parse fuel s = .error .expectedAndOr) ∧
    (∀ fuel (cs : List Command) (s s1 : PState), and_or (fuel + 1) s = .ok (none, s1) →
      parse_go (fuel + 1) cs s = .ok (.mk cs, s1)) ∧
    parseStream [] = .ok (.mk [], ⟨none, []⟩) := by
  refine ⟨?_, ?_, ?_, rfl⟩
  · intro fuel s s1 s2 h1 h2
    simp only [parse, h1, h2]
  · intro fuel s s1 s2 h1 h2
    simp only [parse, h1, h2]
  · intro fuel cs s s1 h1
    simp only [parse_go, h1]

theorem c5_amended_first_iteration_discriminates_witness :
    parse 1 ⟨none, []⟩ = .ok (.mk [], ⟨none, []⟩) :=
  c5_amended_first_iteration_discriminates.1 1 ⟨none, []⟩ ⟨none, []⟩ ⟨none, []⟩ rfl rfl

/-- C6: the recoverability classification is a total function of the error
value alone — every enumerated unterminated-construct lexical error is
recoverable, and lexical I/O errors, `UnexpectedToken` parse errors, and
every other error are fatal.  Being a pure function, the classification
cannot depend on how many times an error has been seen. -/
theorem c6_recoverability_classification :
    is_recoverable_parse_error (.lexError .eofDuringBackslash) = true ∧
    is_recoverable_parse_error (.lexError .eofDuringComment) = true ∧
    is_recoverable_parse_error (.lexError .eofDuringSingleQuotedString) = true ∧
    is_recoverable_parse_error (.lexError .eofDuringDoubleQuotedString) = true ∧
    is_recoverable_parse_error (.lexError .eofDuringAssignmentWord) = true ∧
    is_recoverable_parse_error (.lexError .eofDuringCommandSubstitution) = true ∧
    is_recoverable_parse_error (.lexError .eofDuringParameterExpansion) = true ∧
    is_recoverable_parse_error (.lexError .ioError) = false ∧
    (∀ t, is_recoverable_parse_error (.parseError (.unexpectedToken t)) = false) ∧
    is_recoverable_parse_error .otherError = false :=
  ⟨rfl, rfl, rfl, rfl, rfl, rfl, rfl, rfl, fun _ => rfl, rfl⟩

/-- C10: whenever `compile_and_run` actually executed a command (its front
end succeeded, so the run — which by the §6 interface always yields a
status — took place), the loop iteration puts the shell back in the
foreground before returning to the prompt, whatever the status was. -/
theorem c10_foreground_restored_after_execution {Status : Type}
    (frontEnd : Except ShellError Unit) (st : Status)
    (hexec : (compile_and_run frontEnd st).2 = true) :
    ReplAction.putShellInForeground ∈
      repl_iteration_actions (compile_and_run frontEnd st).1 := by
  cases frontEnd with
  | error e => simp [compile_and_run] at hexec
  | ok u => simp [compile_and_run, repl_iteration_actions]

theorem c10_foreground_restored_after_execution_witness :
    ReplAction.putShellInForeground ∈
      repl_iteration_actions (compile_and_run (Except.ok () : Except ShellError Unit) ()).1 :=
  c10_foreground_restored_after_execution (Except.ok ()) () rfl

/-- C8 counterexample: with an expander for which the (rewritten) first word
expands to zero fields, `expand_argv` applies the command-word rewrite to
the second word as well — the result is the expansion of the rewritten
second word, not the as-is expansion the claim prescribes. -/
theorem c8_counterexample :
    expand_argv c8Rules c8Expand () [wordTok "a", wordTok "b"] () = .ok (["b~"], ()) ∧
    c8Expand "b" () = .ok (["b"], ()) ∧
    expand_words_as_is c8Expand [wordTok "b"] () = .ok (["b"], ()) ∧
    (["b~"] : List String) ≠ ["b"] := by
  refine ⟨rfl, rfl, rfl, by decide⟩

theorem expand_argv_go_of_ne_nil {Env Aliases : Type}
    (applyCommandWordRules : Option Aliases → Token → Token)
    (expandWord : String → Env → Except Unit (List String × Env)) (aliases : Aliases) :
    ∀ (ws : List Token) (argv : List String) (env : Env), argv ≠ [] →
      expand_argv_go applyCommandWordRules expandWord aliases argv ws env =
        (match expand_words_as_is expandWord ws env with
         | .error e => .error e
         | .ok (fields2, env2) => .ok (argv ++ fields2, env2)) := by
  intro ws
  induction ws with
  | nil => intro argv env hne; simp [expand_argv_go, expand_words_as_is]
  | cons t rest ih =>
    intro argv env hne
    have hni : argv.isEmpty = false := by simpa [List.isEmpty_iff] using hne
    cases htk : t.kind with
    | word text =>
      simp only [expand_argv_go, expand_words_as_is, hni, htk, Bool.false_eq_true, if_false]
      cases hEW : expandWord text env with
      | error e => simp
      | ok r =>
        obtain ⟨fields, env1⟩ := r
        simp only [ih (argv ++ fields) env1 (by simp [hne])]
        cases expand_words_as_is expandWord rest env1 with
        | error e => simp
        | ok r2 => obtain ⟨f2, e2⟩ := r2; simp
    | name text =>
      simp only [expand_argv_go, expand_words_as_is, hni, htk, Bool.false_eq_true, if_false]
      cases hEW : expandWord text env with
      | error e => simp
      | ok r =>
        obtain ⟨fields, env1⟩ := r
        simp only [ih (argv ++ fields) env1 (by simp [hne])]
        cases expand_words_as_is expandWord rest env1 with
        | error e => simp
        | ok r2 => obtain ⟨f2, e2⟩ := r2; simp
    | reservedWord w =>
      simp [expand_argv_go, expand_words_as_is, hni, htk]
    | operator op =>
      simp [expand_argv_go, expand_words_as_is, hni, htk]
    | newLine =>
      simp [expand_argv_go, expand_words_as_is, hni, htk]
    | eof =>
      simp [expand_argv_go, expand_words_as_is, hni, htk]

theorem expand_words_as_is_kinds {Env : Type}
    (expandWord : String → Env → Except Unit (List String × Env))
    (htotal : ∀ text env, ∃ r, expandWord text env = .ok r) :
    ∀ (ws : List Token) (env : Env),
      (ws.all (fun t => isWordOrName t.kind) = false →
        expand_words_as_is expandWord ws env = .error .unhandledToken) ∧
      (ws.all (fun t => isWordOrName t.kind) = true →
        ∃ r, expand_words_as_is expandWord ws env = .ok r) := by
  intro ws
  induction ws with
  | nil =>
    intro env
    exact ⟨by simp, fun _ => ⟨([], env), rfl⟩⟩
  | cons t rest ih =>
    intro env
    constructor
    · intro hbad
      cases hk : t.kind with
      | word text =>
        obtain ⟨⟨fields, env1⟩, hEW⟩ := htotal text env
        have hrest : rest.all (fun t => isWordOrName t.kind) = false := by
          simpa [List.all_cons, hk, isWordOrName] using hbad
        simp [expand_words_as_is, hk, hEW, (ih env1).1 hrest]
      | name text =>
        obtain ⟨⟨fields, env1⟩, hEW⟩ := htotal text env
        have hrest : rest.all (fun t => isWordOrName t.kind) = false := by
          simpa [List.all_cons, hk, isWordOrName] using hbad
        simp [expand_words_as_is, hk, hEW, (ih env1).1 hrest]
      | reservedWord w => simp [expand_words_as_is, hk]
      | operator op => simp [expand_words_as_is, hk]
      | newLine => simp [expand_words_as_is, hk]
      | eof => simp [expand_words_as_is, hk]
    · intro hgood
      have hhead : isWordOrName t.kind = true := by
        simp [List.all_cons] at hgood
        exact hgood.1
      have hrest : rest.all (fun t => isWordOrName t.kind) = true := by
        simp [List.all_cons] at hgood
        exact List.all_eq_true.mpr hgood.2
      cases hk : t.kind with
      | word text =>
        obtain ⟨⟨fields, env1⟩, hEW⟩ := htotal text env
        obtain ⟨⟨f2, e2⟩, hrec⟩ := (ih env1).2 hrest
        exact ⟨(fields ++ f2, e2), by simp [expand_words_as_is, hk, hEW, hrec]⟩
      | name text =>
        obtain ⟨⟨fields, env1⟩, hEW⟩ := htotal text env
        obtain ⟨⟨f2, e2⟩, hrec⟩ := (ih env1).2 hrest
        exact ⟨(fields ++ f2, e2), by simp [expand_words_as_is, hk, hEW, hrec]⟩
      | reservedWord w => simp [isWordOrName, hk] at hhead
      | operator op => simp [isWordOrName, hk] at hhead
      | newLine => simp [isWordOrName, hk] at hhead
      | eof => simp [isWordOrName, hk] at hhead

/-- C8 amended: `expand_argv` applies the command-word/alias rewrite to
every word processed while the accumulated argv is still empty — hence to
exactly the first word whenever every expansion yields at least one field,
in which case each subsequent word is expanded as-is and the expanded
fields concatenate in word order; and, when the expander never fails, it
fails with the programming-error bail exactly when some processed word's
kind (the first word taken after its rewrite) is neither word nor name. -/
theorem c8_amended_rules_while_argv_empty {Env Aliases : Type}
    (applyCommandWordRules : Option Aliases → Token → Token)
    (expandWord : String → Env → Except Unit (List String × Env)) (aliases : Aliases) :
    (∀ (w : Token) (rest : List Token) (env : Env) (text : String)
       (fields : List String) (env1 : Env),
       ((applyCommandWordRules (some aliases) w).kind = .word text ∨
        (applyCommandWordRules (some aliases) w).kind = .name text) →
       expandWord text env = .ok (fields, env1) →
       fields ≠ [] →
       expand_argv applyCommandWordRules expandWord aliases (w :: rest) env =
         (match expand_words_as_is expandWord rest env1 with
          | .error e => .error e
          | .ok (fields2, env2) => .ok (fields ++ fields2, env2))) ∧
    (∀ (ws : List Token) (env : Env),
       (∀ text env0, ∃ r, expandWord text env0 = .ok r) →
       (∀ text env0 fs e2, expandWord text env0 = .ok (fs, e2) → fs ≠ ([] : List String)) →
       ((good_expand_kinds applyCommandWordRules aliases ws = false →
         expand_argv applyCommandWordRules expandWord aliases ws env =
           .error .unhandledToken) ∧
        (good_expand_kinds applyCommandWordRules aliases ws = true →
         ∃ r, expand_argv applyCommandWordRules expandWord aliases ws env = .ok r))) := by
  constructor
  · intro w rest env text fields env1 hkind hEW hne
    have hgo := expand_argv_go_of_ne_nil applyCommandWordRules expandWord aliases
      rest fields env1 hne
    cases hkind with
    | inl hk =>
      simp [expand_argv, expand_argv_go, hk, hEW, hgo]
    | inr hk =>
      simp [expand_argv, expand_argv_go, hk, hEW, hgo]
  · intro ws env htotal hnef
    cases ws with
    | nil =>
      refine ⟨fun hbad => ?_, fun _ => ⟨([], env), rfl⟩⟩
      simp [good_expand_kinds] at hbad
    | cons w rest =>
      constructor
      · intro hbad
        cases hkw : isWordOrName (applyCommandWordRules (some aliases) w).kind with
        | false =>
          cases hk : (applyCommandWordRules (some aliases) w).kind with
          | word text => simp [isWordOrName, hk] at hkw
          | name text => simp [isWordOrName, hk] at hkw
          | reservedWord v => simp [expand_argv, expand_argv_go, hk]
          | operator op => simp [expand_argv, expand_argv_go, hk]
          | newLine => simp [expand_argv, expand_argv_go, hk]
          | eof => simp [expand_argv, expand_argv_go, hk]
        | true =>
          have hrest : rest.all (fun t => isWordOrName t.kind) = false := by
            simpa [good_expand_kinds, hkw] using hbad
          cases hk : (applyCommandWordRules (some aliases) w).kind with
          | word text =>
            obtain ⟨⟨fields, env1⟩, hEW⟩ := htotal text env
            have hfne := hnef text env fields env1 hEW
            have hgo := expand_argv_go_of_ne_nil applyCommandWordRules expandWord aliases
              rest fields env1 hfne
            have hasis := (expand_words_as_is_kinds expandWord htotal rest env1).1 hrest
            simp [expand_argv, expand_argv_go, hk, hEW, hgo, hasis]
          | name text =>
            obtain ⟨⟨fields, env1⟩, hEW⟩ := htotal text env
            have hfne := hnef text env fields env1 hEW
            have hgo := expand_argv_go_of_ne_nil applyCommandWordRules expandWord aliases
              rest fields env1 hfne
            have hasis := (expand_words_as_is_kinds expandWord htotal rest env1).1 hrest
            simp [expand_argv, expand_argv_go, hk, hEW, hgo, hasis]
          | reservedWord v => simp [isWordOrName, hk] at hkw
          | operator op => simp [isWordOrName, hk] at hkw
          | newLine => simp [isWordOrName, hk] at hkw
          | eof => simp [isWordOrName, hk] at hkw
      · intro hgood
        have hkw : isWordOrName (applyCommandWordRules (some aliases) w).kind = true := by
          simp [good_expand_kinds] at hgood
          exact hgood.1
        have hrest : rest.all (fun t => isWordOrName t.kind) = true := by
          simp [good_expand_kinds] at hgood
          exact List.all_eq_true.mpr hgood.2
        cases hk : (applyCommandWordRules (some aliases) w).kind with
        | word text =>
          obtain ⟨⟨fields, env1⟩, hEW⟩ := htotal text env
          have hfne := hnef text env fields env1 hEW
          have hgo := expand_argv_go_of_ne_nil applyCommandWordRules expandWord aliases
            rest fields env1 hfne
          obtain ⟨⟨f2, e2⟩, hrec⟩ := (expand_words_as_is_kinds expandWord htotal rest env1).2 hrest
          exact ⟨(fields ++ f2, e2), by simp [expand_argv, expand_argv_go, hk, hEW, hgo, hrec]⟩
        | name text =>
          obtain ⟨⟨fields, env1⟩, hEW⟩ := htotal text env
          have hfne := hnef text env fields env1 hEW
          have hgo := expand_argv_go_of_ne_nil applyCommandWordRules expandWord aliases
            rest fields env1 hfne
          obtain ⟨⟨f2, e2⟩, hrec⟩ := (expand_words_as_is_kinds expandWord htotal rest env1).2 hrest
          exact ⟨(fields ++ f2, e2), by simp [expand_argv, expand_argv_go, hk, hEW, hgo, hrec]⟩
        | reservedWord v => simp [isWordOrName, hk] at hkw
        | operator op => simp [isWordOrName, hk] at hkw
        | newLine => simp [isWordOrName, hk] at hkw
        | eof => simp [isWordOrName, hk] at hkw

theorem c8_amended_rules_while_argv_empty_witness :
    expand_argv (fun _ t => t) (fun text (u : Unit) => .ok ([text], u)) ()
        [wordTok "ls", wordTok "-l"] () =
      (match expand_words_as_is (fun text (u : Unit) => .ok ([text], u)) [wordTok "-l"] () with
       | .error e => .error e
       | .ok (fields2, env2) => .ok (["ls"] ++ fields2, env2)) :=
  (c8_amended_rules_while_argv_empty (fun _ t => t)
      (fun text (u : Unit) => .ok ([text], u)) ()).1
    (wordTok "ls") [wordTok "-l"] () "ls" ["ls"] () (Or.inl rfl) rfl (by decide)

theorem next_token_exists (s : PState) : ∃ t l, next_token s = (t, ⟨none, l⟩) := by
  rcases s with ⟨la, rest⟩
  cases la with
  | some t => exact ⟨t, rest, rfl⟩
  | none =>
    cases rest with
    | nil => exact ⟨eofToken, [], rfl⟩
    | cons t l => exact ⟨t, l, rfl⟩

theorem next_token_is_exists (k : TokenKind) (s : PState) :
    ∃ b s1, next_token_is k s = .ok (b, s1) := by
  obtain ⟨t, l, hnt⟩ := next_token_exists s
  unfold next_token_is
  rw [hnt]
  by_cases hk : k == t.kind
  · exact ⟨true, ⟨none, l⟩, by simp [hk]⟩
  · exact ⟨false, ⟨some t, l⟩, by simp [hk, unget_token]⟩

theorem next_token_is_reserved_word_exists (w : ReservedWord) (s : PState) :
    ∃ b s1, next_token_is_reserved_word w s = .ok (b, s1) := by
  obtain ⟨t, l, hnt⟩ := next_token_exists s
  unfold next_token_is_reserved_word
  rw [hnt]
  by_cases hk : t.is_reserved_word w
  · exact ⟨true, ⟨none, l⟩, by simp [hk]⟩
  · exact ⟨false, ⟨some t, l⟩, by simp [hk, unget_token]⟩

theorem separator_op_exists (s : PState) :
    ∃ r s1, separator_op s = .ok (r, s1) := by
  obtain ⟨t, l, hnt⟩ := next_token_exists s
  unfold separator_op
  simp only [hnt]
  cases htk : t.kind with
  | operator op => cases op <;> exact ⟨_, _, rfl⟩
  | word text => exact ⟨_, _, rfl⟩
  | name text => exact ⟨_, _, rfl⟩
  | reservedWord v => exact ⟨_, _, rfl⟩
  | newLine => exact ⟨_, _, rfl⟩
  | eof => exact ⟨_, _, rfl⟩

theorem notAssertion_error_cast {α β : Type} {e : ParseError}
    (h : notAssertion (.error e : Except ParseError α) = true) :
    notAssertion (.error e : Except ParseError β) = true := by
  cases e <;> simp_all [notAssertion]

theorem newline_list_go_no_assert (fuel : Nat) : ∀ (saw : Bool) (s : PState),
    notAssertion (newline_list_go fuel saw s) = true := by
  induction fuel with
  | zero => intro saw s; rfl
  | succ n ih =>
    intro saw s
    obtain ⟨b, s1, h⟩ := next_token_is_exists .newLine s
    rw [newline_list_go]
    cases b with
    | true => simp only [h]; exact ih true s1
    | false => simp only [h]; cases saw <;> rfl

theorem newline_list_no_assert (fuel : Nat) (s : PState) :
    notAssertion (newline_list fuel s) = true :=
  newline_list_go_no_assert fuel false s

theorem linebreak_no_assert (fuel : Nat) (s : PState) :
    notAssertion (linebreak fuel s) = true := by
  unfold linebreak
  have h := newline_list_no_assert fuel s
  cases hg : newline_list fuel s with
  | error e => rw [hg] at h; simp only [hg]; exact notAssertion_error_cast h
  | ok r => obtain ⟨u, s1⟩ := r; simp only [hg]; rfl

theorem separator_no_assert (fuel : Nat) (s : PState) :
    notAssertion (separator fuel s) = true := by
  unfold separator
  obtain ⟨r, s1, h⟩ := separator_op_exists s
  cases r with
  | some sep =>
    simp only [h]
    have hl := linebreak_no_assert fuel s1
    cases hg : linebreak fuel s1 with
    | error e => rw [hg] at hl; simp only [hg]; exact notAssertion_error_cast hl
    | ok r2 => obtain ⟨u, s2⟩ := r2; simp only [hg]; rfl
  | none =>
    simp only [h]
    have hl := newline_list_no_assert fuel s1
    cases hg : newline_list fuel s1 with
    | error e => rw [hg] at hl; simp only [hg]; exact notAssertion_error_cast hl
    | ok r2 =>
      obtain ⟨u, s2⟩ := r2
      cases u <;> simp only [hg] <;> rfl

theorem separator_is_async_no_assert (fuel : Nat) (s : PState) :
    notAssertion (separator_is_async fuel s) = true := by
  unfold separator_is_async
  have h := separator_no_assert fuel s
  cases hg : separator fuel s with
  | error e => rw [hg] at h; simp only [hg]; exact notAssertion_error_cast h
  | ok r => obtain ⟨sep, s1⟩ := r; simp only [hg]; rfl

theorem simple_command_go_no_assert (fuel : Nat) : ∀ (a w : List Token) (b : Bool) (s : PState),
    notAssertion (simple_command_go fuel a w b s) = true := by
  induction fuel with
  | zero => intro a w b s; rfl
  | succ n ih =>
    intro a w b s
    obtain ⟨t, l, hnt⟩ := next_token_exists s
    cases htk : t.kind with
    | word text =>
      rw [simple_command_go]
      simp only [hnt, htk]
      cases hc : w.isEmpty && (parse_assignment_word text).isSome
      · exact ih a (w ++ [t]) b ⟨none, l⟩
      · exact ih (a ++ [t]) w b ⟨none, l⟩
    | eof => rw [simple_command_go]; simp only [hnt, htk]; rfl
    | operator op =>
      cases op <;> rw [simple_command_go] <;> simp only [hnt, htk] <;> rfl
    | newLine => rw [simple_command_go]; simp only [hnt, htk]; rfl
    | name text => rw [simple_command_go]; simp only [hnt, htk]; rfl
    | reservedWord v => rw [simple_command_go]; simp only [hnt, htk]; rfl

theorem simple_command_no_assert (fuel : Nat) (s : PState) :
    notAssertion (simple_command fuel s) = true := by
  unfold simple_command
  have h := simple_command_go_no_assert fuel [] [] false s
  cases hg : simple_command_go fuel [] [] false s with
  | error e => rw [hg] at h; simp only [hg]; exact notAssertion_error_cast h
  | ok r =>
    obtain ⟨⟨a, w, b⟩, s1⟩ := r
    simp only [hg]
    cases hc : a.isEmpty && w.isEmpty <;> rfl

theorem command_no_assert (fuel : Nat) (s : PState) :
    notAssertion (command fuel s) = true := by
  unfold command
  have h := simple_command_no_assert fuel s
  cases hg : simple_command fuel s with
  | error e => rw [hg] at h; simp only [hg]; exact notAssertion_error_cast h
  | ok r =>
    obtain ⟨oc, s1⟩ := r
    cases oc with
    | none => simp only [hg]; rfl
    | some cmd => simp only [hg]; rfl

theorem pipe_sequence_go_no_assert (fuel : Nat) : ∀ (cs : List Command) (s : PState),
    notAssertion (pipe_sequence_go fuel cs s) = true := by
  induction fuel with
  | zero => intro cs s; rfl
  | succ n ih =>
    intro cs s
    obtain ⟨b, s1, h⟩ := next_token_is_exists (.operator .pipe) s
    rw [pipe_sequence_go]
    cases b with
    | false => simp only [h]; rfl
    | true =>
      simp only [h]
      have hl := linebreak_no_assert (n + 1) s1
      cases hg : linebreak (n + 1) s1 with
      | error e => rw [hg] at hl; simp only [hg]; exact notAssertion_error_cast hl
      | ok r =>
        obtain ⟨u, s2⟩ := r
        simp only [hg]
        have hc := command_no_assert (n + 1) s2
        cases hcmd : command (n + 1) s2 with
        | error e => rw [hcmd] at hc; simp only [hcmd]; exact notAssertion_error_cast hc
        | ok r2 =>
          obtain ⟨oc, s3⟩ := r2
          cases oc with
          | some cmd => simp only [hcmd]; exact ih (cs ++ [cmd]) s3
          | none => simp only [hcmd]; rfl

theorem pipe_sequence_no_assert (fuel : Nat) (s : PState) :
    notAssertion (pipe_sequence fuel s) = true := by
  unfold pipe_sequence
  have h := command_no_assert fuel s
  cases hg : command fuel s with
  | error e => rw [hg] at h; simp only [hg]; exact notAssertion_error_cast h
  | ok r =>
    obtain ⟨oc, s1⟩ := r
    cases oc with
    | some cmd => simp only [hg]; exact pipe_sequence_go_no_assert fuel [cmd] s1
    | none => simp only [hg]; rfl

theorem pipeline_no_assert (fuel : Nat) (s : PState) :
    notAssertion (pipeline fuel s) = true := by
  unfold pipeline
  obtain ⟨inv, s1, h⟩ := next_token_is_reserved_word_exists .bang s
  simp only [h]
  have hp := pipe_sequence_no_assert fuel s1
  cases hg : pipe_sequence fuel s1 with
  | error e => rw [hg] at hp; simp only [hg]; exact notAssertion_error_cast hp
  | ok r =>
    obtain ⟨oc, s2⟩ := r
    cases oc with
    | some cmds => simp only [hg]; rfl
    | none => cases inv <;> simp only [hg] <;> rfl

theorem pipeline_conditional_no_assert (fuel : Nat) (cond : Pipeline) (op : Operator)
    (s : PState) : notAssertion (pipeline_conditional fuel cond op s) = true := by
  unfold pipeline_conditional
  have hl := linebreak_no_assert fuel s
  cases hg : linebreak fuel s with
  | error e => rw [hg] at hl; simp only [hg]; exact notAssertion_error_cast hl
  | ok r =>
    obtain ⟨u, s1⟩ := r
    simp only [hg]
    have hp := pipeline_no_assert fuel s1
    cases hpl : pipeline fuel s1 with
    | error e => rw [hpl] at hp; simp only [hpl]; exact notAssertion_error_cast hp
    | ok r2 =>
      obtain ⟨op2, s2⟩ := r2
      cases op2 with
      | none => simp only [hpl]; rfl
      | some p => simp only [hpl]; rfl

theorem and_or_no_assert (fuel : Nat) (s : PState) :
    notAssertion (and_or fuel s) = true := by
  unfold and_or
  have hp := pipeline_no_assert fuel s
  cases hpl : pipeline fuel s with
  | error e => rw [hpl] at hp; simp only [hpl]; exact notAssertion_error_cast hp
  | ok r =>
    obtain ⟨opl, s1⟩ := r
    cases opl with
    | none => simp only [hpl]; rfl
    | some p =>
      simp only [hpl]
      obtain ⟨b1, s2, h1⟩ := next_token_is_exists (.operator .andIf) s1
      cases b1 with
      | true => simp only [h1]; exact pipeline_conditional_no_assert fuel p .andIf s2
      | false =>
        simp only [h1]
        obtain ⟨b2, s3, h2⟩ := next_token_is_exists (.operator .orIf) s2
        cases b2 with
        | true => simp only [h2]; exact pipeline_conditional_no_assert fuel p .orIf s3
        | false => simp only [h2]; rfl

theorem parse_go_no_assert (fuel : Nat) : ∀ (cs : List Command) (s : PState),
    notAssertion (parse_go fuel cs s) = true := by
  induction fuel with
  | zero => intro cs s; rfl
  | succ n ih =>
    intro cs s
    have ha := and_or_no_assert (n + 1) s
    rw [parse_go]
    cases hg : and_or (n + 1) s with
    | error e => rw [hg] at ha; simp only [hg]; exact notAssertion_error_cast ha
    | ok r =>
      obtain ⟨oc, s1⟩ := r
      cases oc with
      | none => simp only [hg]; rfl
      | some cmd =>
        simp only [hg]
        have hs := separator_is_async_no_assert (n + 1) s1
        cases hsep : separator_is_async (n + 1) s1 with
        | error e => rw [hsep] at hs; simp only [hsep]; exact notAssertion_error_cast hs
        | ok r2 =>
          obtain ⟨b, s2⟩ := r2
          simp only [hsep]
          exact ih (cs ++ [cmd.withAsynchronous b]) s2

theorem parse_no_assert (fuel : Nat) (s : PState) :
    notAssertion (parse fuel s) = true := by
  unfold parse
  have ha := and_or_no_assert fuel s
  cases hg : and_or fuel s with
  | error e => rw [hg] at ha; simp only [hg]; exact notAssertion_error_cast ha
  | ok r =>
    obtain ⟨oc, s1⟩ := r
    cases oc with
    | none =>
      simp only [hg]
      obtain ⟨b, s2, h⟩ := next_token_is_exists .eof s1
      cases b <;> simp only [h] <;> rfl
    | some cmd =>
      simp only [hg]
      have hs := separator_is_async_no_assert fuel s1
      cases hsep : separator_is_async fuel s1 with
      | error e => rw [hsep] at hs; simp only [hsep]; exact notAssertion_error_cast hs
      | ok r2 =>
        obtain ⟨b, s2⟩ := r2
        simp only [hsep]
        exact parse_go_no_assert fuel [cmd.withAsynchronous b] s2

/-- C9: the parser's single-slot lookahead invariant holds on every token
stream and from every parser state: `unget_token` is only ever reached with
the slot empty, so the assertion guarding the pushback never fires — the
`assertionFailed` outcome is unreachable for `parse`, `and_or`, `pipeline`
and `simple_command`, including on the error paths of each. -/
theorem c9_lookahead_assertion_never_fires (fuel : Nat) (s : PState) :
    notAssertion (parse fuel s) = true ∧
    notAssertion (and_or fuel s) = true ∧
    notAssertion (pipeline fuel s) = true ∧
    notAssertion (simple_command fuel s) = true :=
  ⟨parse_no_assert fuel s, and_or_no_assert fuel s, pipeline_no_assert fuel s,
    simple_command_no_assert fuel s⟩

theorem withAsynchronous_good {c : Command} (h : GoodCmd c) (b : Bool) :
    GoodCmd (c.withAsynchronous b) := by
  cases h with
  | simple a sc r => exact GoodCmd.simple b sc r
  | pipe a inv cs r hne hlen hall => exact GoodCmd.pipe b inv cs r hne hlen hall
  | brace a cs r hall => exact GoodCmd.brace b cs r hall
  | sub a cs r hall => exact GoodCmd.sub b cs r hall
  | forE a wl cs r hall => exact GoodCmd.forE b wl cs r hall
  | ifC a cond tp fp r hcond htp hfp => exact GoodCmd.ifC b cond tp fp r hcond htp hfp
  | untilC a body cond r hb hc => exact GoodCmd.untilC b body cond r hb hc
  | whileC a cond body r hc hb => exact GoodCmd.whileC b cond body r hc hb

theorem fromPipeline_good (p : Pipeline) (hne : p.commands ≠ [])
    (hall : ∀ c ∈ p.commands, GoodCmd c) : GoodCmd (Command.fromPipeline p) := by
  obtain ⟨inv, cs⟩ := p
  simp only [Pipeline.commands] at hne hall
  cases inv with
  | false =>
    cases cs with
    | nil => exact absurd rfl hne
    | cons c rest =>
      cases rest with
      | nil => simpa [Command.fromPipeline] using hall c (by simp)
      | cons c2 rest2 =>
        exact GoodCmd.pipe false false (c :: c2 :: rest2) none (by simp)
          (Or.inr (by simp [List.length_cons])) hall
  | true =>
    cases cs with
    | nil => exact absurd rfl hne
    | cons c rest =>
      exact GoodCmd.pipe false true (c :: rest) none (by simp) (Or.inl rfl) hall

theorem command_good (fuel : Nat) (s : PState) (c : Command) (s1 : PState)
    (h : command fuel s = .ok (some c, s1)) : GoodCmd c := by
  unfold command at h
  cases hg : simple_command fuel s with
  | error e => rw [hg] at h; exact absurd h (by simp)
  | ok r =>
    obtain ⟨oc, s2⟩ := r
    cases oc with
    | none => simp only [hg] at h; exact absurd h (by simp)
    | some sc =>
      simp only [hg, Except.ok.injEq, Prod.mk.injEq, Option.some.injEq] at h
      obtain ⟨hc, -⟩ := h
      rw [← hc]
      exact GoodCmd.simple false sc none

theorem pipe_sequence_go_good (fuel : Nat) : ∀ (cs : List Command) (s : PState)
    (r : List Command) (s1 : PState), (∀ c ∈ cs, GoodCmd c) →
    pipe_sequence_go fuel cs s = .ok (some r, s1) →
    (∀ c ∈ r, GoodCmd c) ∧ (cs ≠ [] → r ≠ []) := by
  induction fuel with
  | zero => intro cs s r s1 hall h; cases h
  | succ n ih =>
    intro cs s r s1 hall h
    obtain ⟨b, s2, hb⟩ := next_token_is_exists (.operator .pipe) s
    rw [pipe_sequence_go] at h
    cases b with
    | false =>
      simp only [hb, Except.ok.injEq, Prod.mk.injEq, Option.some.injEq] at h
      obtain ⟨hcs, -⟩ := h
      subst hcs
      exact ⟨hall, fun hne => hne⟩
    | true =>
      simp only [hb] at h
      cases hg : linebreak (n + 1) s2 with
      | error e => rw [hg] at h; exact absurd h (by simp)
      | ok r2 =>
        obtain ⟨u, s3⟩ := r2
        simp only [hg] at h
        cases hcmd : command (n + 1) s3 with
        | error e => rw [hcmd] at h; exact absurd h (by simp)
        | ok r3 =>
          obtain ⟨oc, s4⟩ := r3
          cases oc with
          | none => simp only [hcmd] at h; exact absurd h (by simp)
          | some cmd =>
            simp only [hcmd] at h
            have hall2 : ∀ c ∈ cs ++ [cmd], GoodCmd c := by
              intro c hc
              rcases List.mem_append.mp hc with hc | hc
              · exact hall c hc
              · rw [List.mem_singleton.mp hc]
                exact command_good (n + 1) s3 cmd s4 hcmd
            have hres := ih (cs ++ [cmd]) s4 r s1 hall2 h
            exact ⟨hres.1, fun _ => hres.2 (by simp)⟩

theorem pipe_sequence_good (fuel : Nat) (s : PState) (r : List Command) (s1 : PState)
    (h : pipe_sequence fuel s = .ok (some r, s1)) :
    (∀ c ∈ r, GoodCmd c) ∧ r ≠ [] := by
  unfold pipe_sequence at h
  cases hg : command fuel s with
  | error e => rw [hg] at h; exact absurd h (by simp)
  | ok r2 =>
    obtain ⟨oc, s2⟩ := r2
    cases oc with
    | none => simp only [hg] at h; exact absurd h (by simp)
    | some cmd =>
      simp only [hg] at h
      have hall : ∀ c ∈ [cmd], GoodCmd c := by
        intro c hc
        rw [List.mem_singleton.mp hc]
        exact command_good fuel s cmd s2 hg
      have hres := pipe_sequence_go_good fuel [cmd] s2 r s1 hall h
      exact ⟨hres.1, hres.2 (by simp)⟩

theorem pipeline_good (fuel : Nat) (s : PState) (p : Pipeline) (s1 : PState)
    (h : pipeline fuel s = .ok (some p, s1)) :
    p.commands ≠ [] ∧ ∀ c ∈ p.commands, GoodCmd c := by
  unfold pipeline at h
  obtain ⟨inv, s2, hb⟩ := next_token_is_reserved_word_exists .bang s
  simp only [hb] at h
  cases hg : pipe_sequence fuel s2 with
  | error e => rw [hg] at h; exact absurd h (by simp)
  | ok r =>
    obtain ⟨oc, s3⟩ := r
    cases oc with
    | some cmds =>
      simp only [hg, Except.ok.injEq, Prod.mk.injEq, Option.some.injEq] at h
      obtain ⟨hp, -⟩ := h
      obtain ⟨hgood, hne⟩ := pipe_sequence_good fuel s2 cmds s3 hg
      rw [← hp]
      exact ⟨by simpa [Pipeline.commands] using hne, by simpa [Pipeline.commands] using hgood⟩
    | none =>
      cases inv with
      | true => simp only [hg] at h; exact absurd h (by simp)
      | false => simp only [hg] at h; exact absurd h (by simp)

theorem pipeline_conditional_good (fuel : Nat) (cond : Pipeline) (op : Operator)
    (s : PState) (c : Command) (s1 : PState)
    (hcne : cond.commands ≠ []) (hcall : ∀ x ∈ cond.commands, GoodCmd x)
    (h : pipeline_conditional fuel cond op s = .ok (some c, s1)) : GoodCmd c := by
  unfold pipeline_conditional at h
  cases hg : linebreak fuel s with
  | error e => rw [hg] at h; exact absurd h (by simp)
  | ok r =>
    obtain ⟨u, s2⟩ := r
    simp only [hg] at h
    cases hpl : pipeline fuel s2 with
    | error e => rw [hpl] at h; exact absurd h (by simp)
    | ok r2 =>
      obtain ⟨op2, s3⟩ := r2
      cases op2 with
      | none => simp only [hpl] at h; exact absurd h (by simp)
      | some p =>
        simp only [hpl, Except.ok.injEq, Prod.mk.injEq, Option.some.injEq] at h
        obtain ⟨hc, -⟩ := h
        obtain ⟨hpne, hpall⟩ := pipeline_good fuel s2 p s3 hpl
        have hgp := fromPipeline_good p hpne hpall
        have hgc := fromPipeline_good cond hcne hcall
        have hcondH : ∀ x ∈ [Command.fromPipeline cond], GoodCmd x := by
          intro x hx
          rw [List.mem_singleton.mp hx]
          exact hgc
        have hsomeH : ∀ l, some (CompoundList.mk [Command.fromPipeline p]) = some l →
            ∀ x ∈ l.commands, GoodCmd x := by
          intro l hl x hx
          injection hl with h2
          rw [← h2] at hx
          simp only [CompoundList.commands] at hx
          rw [List.mem_singleton.mp hx]
          exact hgp
        have hnoneH : ∀ l : CompoundList, (none : Option CompoundList) = some l →
            ∀ x ∈ l.commands, GoodCmd x := by
          intro l hl
          exact absurd hl (by simp)
        rw [← hc]
        cases op with
        | pipe =>
          exact GoodCmd.ifC false [Command.fromPipeline cond] none
            (some (.mk [Command.fromPipeline p])) none hcondH hnoneH hsomeH
        | ampersand =>
          exact GoodCmd.ifC false [Command.fromPipeline cond] none
            (some (.mk [Command.fromPipeline p])) none hcondH hnoneH hsomeH
        | semicolon =>
          exact GoodCmd.ifC false [Command.fromPipeline cond] none
            (some (.mk [Command.fromPipeline p])) none hcondH hnoneH hsomeH
        | andIf =>
          exact GoodCmd.ifC false [Command.fromPipeline cond]
            (some (.mk [Command.fromPipeline p])) none none hcondH hsomeH hnoneH
        | orIf =>
          exact GoodCmd.ifC false [Command.fromPipeline cond] none
            (some (.mk [Command.fromPipeline p])) none hcondH hnoneH hsomeH

theorem and_or_good (fuel : Nat) (s : PState) (c : Command) (s1 : PState)
    (h : and_or fuel s = .ok (some c, s1)) : GoodCmd c := by
  unfold and_or at h
  cases hpl : pipeline fuel s with
  | error e => rw [hpl] at h; exact absurd h (by simp)
  | ok r =>
    obtain ⟨opl, s2⟩ := r
    cases opl with
    | none => simp only [hpl] at h; exact absurd h (by simp)
    | some p =>
      simp only [hpl] at h
      obtain ⟨hpne, hpall⟩ := pipeline_good fuel s p s2 hpl
      obtain ⟨b1, s3, h1⟩ := next_token_is_exists (.operator .andIf) s2
      cases b1 with
      | true =>
        simp only [h1] at h
        exact pipeline_conditional_good fuel p .andIf s3 c s1 hpne hpall h
      | false =>
        simp only [h1] at h
        obtain ⟨b2, s4, h2⟩ := next_token_is_exists (.operator .orIf) s3
        cases b2 with
        | true =>
          simp only [h2] at h
          exact pipeline_conditional_good fuel p .orIf s4 c s1 hpne hpall h
        | false =>
          simp only [h2, Except.ok.injEq, Prod.mk.injEq, Option.some.injEq] at h
          obtain ⟨hc, -⟩ := h
          rw [← hc]
          exact fromPipeline_good p hpne hpall

theorem parse_go_good (fuel : Nat) : ∀ (cs : List Command) (s : PState) (l : CompoundList)
    (s1 : PState), (∀ c ∈ cs, GoodCmd c) → parse_go fuel cs s = .ok (l, s1) →
    ∀ c ∈ l.commands, GoodCmd c := by
  induction fuel with
  | zero => intro cs s l s1 hall h; cases h
  | succ n ih =>
    intro cs s l s1 hall h
    rw [parse_go] at h
    cases hg : and_or (n + 1) s with
    | error e => rw [hg] at h; exact absurd h (by simp)
    | ok r =>
      obtain ⟨oc, s2⟩ := r
      cases oc with
      | none =>
        simp only [hg, Except.ok.injEq, Prod.mk.injEq] at h
        obtain ⟨hl, -⟩ := h
        rw [← hl]
        simpa [CompoundList.commands] using hall
      | some cmd =>
        simp only [hg] at h
        cases hsep : separator_is_async (n + 1) s2 with
        | error e => rw [hsep] at h; exact absurd h (by simp)
        | ok r2 =>
          obtain ⟨b, s3⟩ := r2
          simp only [hsep] at h
          have hcg := and_or_good (n + 1) s cmd s2 hg
          have hall2 : ∀ c ∈ cs ++ [cmd.withAsynchronous b], GoodCmd c := by
            intro c hc
            rcases List.mem_append.mp hc with hc | hc
            · exact hall c hc
            · rw [List.mem_singleton.mp hc]
              exact withAsynchronous_good hcg b
          exact ih (cs ++ [cmd.withAsynchronous b]) s3 l s1 hall2 h

/-- C7: converting a one-command, non-inverted `Pipeline` into a `Command`
yields that command itself (never a `CommandType::Pipeline` wrapper), and
consequently every tree `parse` produces is free of single-stage
non-inverted pipeline nodes: every `Pipeline` node in the output is
non-empty and either inverted or of length at least two. -/
theorem c7_single_stage_pipeline_collapse :
    (∀ c : Command, Command.fromPipeline (.mk false [c]) = c) ∧
    (∀ (fuel : Nat) (s : PState) (l : CompoundList) (s1 : PState),
      parse fuel s = .ok (l, s1) → ∀ c ∈ l.commands, GoodCmd c) := by
  constructor
  · intro c
    rfl
  · intro fuel s l s1 h
    unfold parse at h
    cases hg : and_or fuel s with
    | error e => rw [hg] at h; exact absurd h (by simp)
    | ok r =>
      obtain ⟨oc, s2⟩ := r
      cases oc with
      | none =>
        simp only [hg] at h
        obtain ⟨b, s3, hb⟩ := next_token_is_exists .eof s2
        cases b with
        | true =>
          simp only [hb, Except.ok.injEq, Prod.mk.injEq] at h
          obtain ⟨hl, -⟩ := h
          rw [← hl]
          simp [CompoundList.commands]
        | false => simp only [hb] at h; exact absurd h (by simp)
      | some cmd =>
        simp only [hg] at h
        cases hsep : separator_is_async fuel s2 with
        | error e => rw [hsep] at h; exact absurd h (by simp)
        | ok r2 =>
          obtain ⟨b, s3⟩ := r2
          simp only [hsep] at h
          have hcg := and_or_good fuel s cmd s2 hg
          have hall : ∀ c ∈ [cmd.withAsynchronous b], GoodCmd c := by
            intro c hc
            rw [List.mem_singleton.mp hc]
            exact withAsynchronous_good hcg b
          exact parse_go_good fuel [cmd.withAsynchronous b] s3 l s1 hall h

theorem c7_single_stage_pipeline_collapse_witness :
    GoodCmd (simpleCmdOf [wordTok "ls"]) := by
  have h := c7_single_stage_pipeline_collapse.2 2 ⟨none, [wordTok "ls"]⟩
    (.mk [simpleCmdOf [wordTok "ls"]]) ⟨none, []⟩ rfl
  exact h (simpleCmdOf [wordTok "ls"]) (by simp [CompoundList.commands])
